import Mathlib

/-!
Shallow embedding of the Minesweeper board engine of `minesweeper.py`
(class `MinesweeperGame`), together with proofs about its construction,
`PlantFlag`, `Dig` (including the flood fill), and `Won`.

Modelling conventions:
* Python ints are unbounded, so coordinates and dimensions are `Int`;
  the non-negative counters `dug_count` and `flag_count` are `Nat`.
* The board dict maps every in-bounds `(row, col)` to a `CellValue` enum
  member or to the `int` neighbour count written by `Dig`; we model it as a
  total function `Pos → Cell` (only in-bounds cells are ever read or written).
* A Python method that can raise returns its mutated state together with an
  optional exception: in CPython the attribute mutations performed before a
  `raise` survive on the object.
* Exception message strings are reproduced with their apostrophes dropped
  (so "Whats dead can never dig" and "Cant plant a flag outside the board");
  nothing below depends on the exact message text.
-/

/-- Grid coordinate `(row, col)`, the key type of the board dict. -/
abbrev Pos := Int × Int

/-- Values held by a board cell: the `CellValue` members `UNKNOWN`, `FLAG`,
`MINE`, `LAVA`, or the plain `int` neighbour count that `Dig` stores
(`self.board[(row, col)] = neighbors`). -/
inductive Cell where
  | unknown
  | flag
  | mine
  | lava
  | num (n : Nat)
deriving DecidableEq, Repr

/-- Python exceptions raised by the engine. -/
inductive PyErr where
  | valueError (msg : String)
  | typeError (msg : String)
deriving DecidableEq, Repr

/-- Result of `Dig`: the returned boolean, or a raised exception. -/
inductive DigOutcome where
  | ret (b : Bool)
  | raised (e : PyErr)
deriving DecidableEq, Repr

/-- Predicate `ValidPosition`: `0 <= row < self.num_rows and 0 <= col < self.num_cols`. -/
def inB (numRows numCols : Int) (p : Pos) : Prop :=
  0 ≤ p.1 ∧ p.1 < numRows ∧ 0 ≤ p.2 ∧ p.2 < numCols

instance (numRows numCols : Int) (p : Pos) : Decidable (inB numRows numCols p) := by
  unfold inB
  exact inferInstance

/-- The 3×3 block scanned by the nested `for drow ... for dcol ...` loops of
the source, in their row-major order.  Note the centre cell itself is
included, exactly as in the source (`drow` ranges over
`(row - 1, row, row + 1)` and likewise `dcol`). -/
def block3 (p : Pos) : List Pos :=
  [(p.1 - 1, p.2 - 1), (p.1 - 1, p.2), (p.1 - 1, p.2 + 1),
   (p.1, p.2 - 1), (p.1, p.2), (p.1, p.2 + 1),
   (p.1 + 1, p.2 - 1), (p.1 + 1, p.2), (p.1 + 1, p.2 + 1)]

/-- The key set of the board dict: every in-bounds cell. -/
def cellsOf (numRows numCols : Int) : Finset Pos :=
  ((Finset.range numRows.toNat) ×ˢ (Finset.range numCols.toNat)).image
    (fun rc => ((rc.1 : Int), (rc.2 : Int)))

theorem mem_block3 {q p : Pos} :
    q ∈ block3 p ↔
      p.1 - 1 ≤ q.1 ∧ q.1 ≤ p.1 + 1 ∧ p.2 - 1 ≤ q.2 ∧ q.2 ≤ p.2 + 1 := by
  rcases q with ⟨a, b⟩
  rcases p with ⟨x, y⟩
  simp only [block3, List.mem_cons, List.not_mem_nil, or_false, Prod.mk.injEq]
  omega

theorem block3_symm {q p : Pos} : q ∈ block3 p ↔ p ∈ block3 q := by
  rw [mem_block3, mem_block3]
  omega

theorem mem_cellsOf {numRows numCols : Int} {p : Pos} :
    p ∈ cellsOf numRows numCols ↔ inB numRows numCols p := by
  rcases p with ⟨a, b⟩
  simp only [cellsOf, Finset.mem_image, Finset.mem_product, Finset.mem_range, inB,
    Prod.exists, Prod.mk.injEq]
  constructor
  · rintro ⟨r, c, ⟨hr, hc⟩, h1, h2⟩
    refine ⟨?_, ?_, ?_, ?_⟩ <;> omega
  · rintro ⟨h1, h2, h3, h4⟩
    exact ⟨a.toNat, b.toNat, ⟨by omega, by omega⟩, by omega, by omega⟩

theorem card_cellsOf (numRows numCols : Int) :
    (cellsOf numRows numCols).card = numRows.toNat * numCols.toNat := by
  unfold cellsOf
  rw [Finset.card_image_of_injective _ (fun x y h => ?_), Finset.card_product,
    Finset.card_range, Finset.card_range]
  rcases x with ⟨a, b⟩
  rcases y with ⟨c, d⟩
  simp only [Prod.mk.injEq] at h ⊢
  omega

/-- The state of a `MinesweeperGame` object. -/
structure MinesweeperGame where
  numRows : Int
  numCols : Int
  dead : Bool
  minePositions : Finset Pos
  numNeighbors : Pos → Nat
  board : Pos → Cell
  dugCount : Nat
  flagCount : Nat
  recentlyPoked : List Pos

/-- Neighbour table computed by `__init__`: every square starts at zero and
then, for every mine, each in-bounds cell of the mine's 3×3 block gets one
increment — the mine's own cell included, since the `drow`/`dcol` ranges do
not exclude `(mrow, mcol)` itself.  Reindexed per cell: the count at an
in-bounds `p` is the number of mines whose 3×3 block contains `p`. -/
def initNumNeighbors (numRows numCols : Int) (mines : Finset Pos) (p : Pos) : Nat :=
  if inB numRows numCols p then (mines.filter (fun m => p ∈ block3 m)).card else 0

/-- List comprehension `[(row, col) for row in range(num_rows) for col in range(num_cols)]`. -/
def population (numRows numCols : Int) : List Pos :=
  (List.range numRows.toNat).flatMap
    (fun r => (List.range numCols.toNat).map (fun c => (Int.ofNat r, Int.ofNat c)))

/-- What `random.sample(population, num_mines)` guarantees when it returns:
`num_mines` distinct elements of the population.  The seeded Mersenne
Twister choosing them is Python library code and is not modelled; the claims
below depend only on these properties of its result. -/
def SampleOk (numRows numCols numMines : Int) (sample : List Pos) : Prop :=
  sample.Nodup ∧ sample.length = numMines.toNat ∧
    ∀ p ∈ sample, p ∈ population numRows numCols

/-- Constructor `MinesweeperGame.__init__`.  The three explicit `ValueError` checks come
first; after them, `random.sample` itself raises `ValueError` when asked for
more elements than the population holds.  `sample` stands for the list
returned by `random.sample`. -/
def mkGame (numRows numCols numMines : Int) (sample : List Pos) :
    Except PyErr MinesweeperGame :=
  if numRows < 1 then .error (.valueError "num_rows must be positive")
  else if numCols < 1 then .error (.valueError "num_cols must be positive")
  else if numMines < 0 then .error (.valueError "num_mines must be non-negative")
  else if (population numRows numCols).length < numMines.toNat then
    .error (.valueError "Sample larger than population or is negative")
  else
    .ok { numRows := numRows
          numCols := numCols
          dead := false
          minePositions := sample.toFinset
          numNeighbors := initNumNeighbors numRows numCols sample.toFinset
          board := fun _ => Cell.unknown
          dugCount := 0
          flagCount := 0
          recentlyPoked := [] }

/-- Method `PlantFlag`.  Out of bounds raises `ValueError` before any mutation.  In
bounds, the cell is set to `FLAG` and `flag_count` is incremented, after
which `self.recently_poked.append(row, col)` — note the missing tuple
parentheses, unlike the call in `Dig` — raises `TypeError` because
`list.append` takes exactly one argument.  So an in-bounds call never
returns normally, and the two earlier mutations survive on the object. -/
def PlantFlag (g : MinesweeperGame) (row col : Int) :
    MinesweeperGame × Option PyErr :=
  if ¬ inB g.numRows g.numCols (row, col) then
    (g, some (.valueError "Cant plant a flag outside the board"))
  else
    ({ g with
        board := fun q => if q = (row, col) then Cell.flag else g.board q
        flagCount := g.flagCount + 1 },
     some (.typeError "append() takes exactly one argument (2 given)"))

theorem card_sdiff_insert_lt {cells seen : Finset Pos} {p : Pos}
    (hp : p ∈ cells) (hns : p ∉ seen) :
    (cells \ insert p seen).card < (cells \ seen).card := by
  apply Finset.card_lt_card
  rw [Finset.ssubset_iff_of_subset
    (Finset.sdiff_subset_sdiff (Finset.Subset.refl _) (Finset.subset_insert _ _))]
  exact ⟨p, Finset.mem_sdiff.mpr ⟨hp, hns⟩,
    fun hc => (Finset.mem_sdiff.mp hc).2 (Finset.mem_insert_self _ _)⟩

/-- The `while len(to_dig) > 0` loop of `Dig`.  The Python list is used as a
stack (`append` pushes at the tail, `pop()` pops the same tail); we keep the
stack top at the head, so our list is the reverse of the Python one, which
only reorients the traversal order.  `hv` records that every stacked cell
passed the `ValidPosition` check when it was pushed. -/
def floodLoop (numRows numCols : Int) (nn : Pos → Nat) (board : Pos → Cell)
    (dug : Nat) (seen : Finset Pos) (stack : List Pos)
    (hv : ∀ q ∈ stack, q ∈ cellsOf numRows numCols) : (Pos → Cell) × Nat :=
  match stack with
  | [] => (board, dug)
  | p :: rest =>
    if hp : p ∈ seen then
      floodLoop numRows numCols nn board dug seen rest
        (fun q hq => hv q (List.mem_cons_of_mem p hq))
    else
      let np := nn p
      let board2 : Pos → Cell := fun q => if q = p then Cell.num np else board q
      if np = 0 then
        floodLoop numRows numCols nn board2 (dug + 1) (insert p seen)
          ((((block3 p).filter
              (fun q => decide (inB numRows numCols q ∧ board2 q = Cell.unknown))).reverse)
            ++ rest)
          (by
            intro q hq
            rcases List.mem_append.mp hq with h | h
            · have h2 := (List.mem_filter.mp (List.mem_reverse.mp h)).2
              exact mem_cellsOf.mpr (of_decide_eq_true h2).1
            · exact hv q (List.mem_cons_of_mem p h))
      else
        floodLoop numRows numCols nn board2 (dug + 1) (insert p seen) rest
          (fun q hq => hv q (List.mem_cons_of_mem p hq))
termination_by ((cellsOf numRows numCols \ seen).card, stack.length)
decreasing_by
  · exact Prod.Lex.right _ (Nat.lt_succ_self _)
  · exact Prod.Lex.left _ _
      (card_sdiff_insert_lt (hv p (List.mem_cons_self p rest)) hp)
  · exact Prod.Lex.left _ _
      (card_sdiff_insert_lt (hv p (List.mem_cons_self p rest)) hp)

/-- The successful-reveal path of `Dig` up to (and excluding) the `Won()`
check: store the neighbour count in the cell, flood-fill if that count is
zero, then `self.dug_count += 1` and `self.recently_poked.append((row, col))`. -/
def digReveal (g : MinesweeperGame) (row col : Int) : MinesweeperGame :=
  let neighbors := g.numNeighbors (row, col)
  let board1 : Pos → Cell :=
    fun q => if q = (row, col) then Cell.num neighbors else g.board q
  let fl : (Pos → Cell) × Nat :=
    if neighbors = 0 then
      floodLoop g.numRows g.numCols g.numNeighbors board1 g.dugCount ∅
        (((block3 (row, col)).filter
            (fun q => decide (inB g.numRows g.numCols q ∧ board1 q = Cell.unknown))).reverse)
        (by
          intro q hq
          have h2 := (List.mem_filter.mp (List.mem_reverse.mp hq)).2
          exact mem_cellsOf.mpr (of_decide_eq_true h2).1)
    else (board1, g.dugCount)
  { g with
      board := fl.1
      dugCount := fl.2 + 1
      recentlyPoked := g.recentlyPoked ++ [(row, col)] }

/-- Method `NumMinesTotal`: `len(self.mine_positions)`. -/
def NumMinesTotal (g : MinesweeperGame) : Nat := g.minePositions.card

/-- Method `Won`: `(len(self.board) - self.dug_count) == self.NumMinesTotal()`.
The board dict always keeps exactly the in-bounds cells as keys, so
`len(self.board)` is the number of in-bounds cells. -/
def Won (g : MinesweeperGame) : Bool :=
  ((cellsOf g.numRows g.numCols).card : Int) - (g.dugCount : Int)
    == (NumMinesTotal g : Int)

/-- Method `Dead`. -/
def Dead (g : MinesweeperGame) : Bool := g.dead

/-- Method `Dig`: dead-board check, bounds check, mine check, re-dig check, and
otherwise the reveal path followed by the `Won()` check that flags every
mine position. -/
def Dig (g : MinesweeperGame) (row col : Int) : MinesweeperGame × DigOutcome :=
  if g.dead then (g, .raised (.valueError "Whats dead can never dig"))
  else if ¬ inB g.numRows g.numCols (row, col) then (g, .ret true)
  else if (row, col) ∈ g.minePositions then
    ({ g with
        board := fun q => if q = (row, col) then Cell.mine else g.board q
        dead := true }, .ret false)
  else if g.board (row, col) ≠ Cell.unknown then
    ({ g with
        board := fun q => if q = (row, col) then Cell.lava else g.board q
        dead := true }, .ret false)
  else
    let g3 := digReveal g row col
    if Won g3 then
      ({ g3 with
          board := fun q => if q ∈ g3.minePositions then Cell.flag else g3.board q },
       .ret true)
    else (g3, .ret true)

/-- Board states reachable from a successful construction by any sequence of
`Dig` / `PlantFlag` calls (taking each call's resulting object state,
whether or not the call raised: in CPython the mutations performed before a
`raise` survive on the object). -/
inductive Reachable : MinesweeperGame → Prop where
  | init (numRows numCols numMines : Int) (sample : List Pos) (g : MinesweeperGame)
      (hs : SampleOk numRows numCols numMines sample)
      (h : mkGame numRows numCols numMines sample = .ok g) : Reachable g
  | dig (g : MinesweeperGame) (row col : Int) (h : Reachable g) :
      Reachable (Dig g row col).1
  | flag (g : MinesweeperGame) (row col : Int) (h : Reachable g) :
      Reachable (PlantFlag g row col).1

theorem mem_population {numRows numCols : Int} {p : Pos} :
    p ∈ population numRows numCols ↔ inB numRows numCols p := by
  rcases p with ⟨a, b⟩
  unfold population inB
  simp only [List.mem_flatMap, List.mem_map, List.mem_range, Prod.mk.injEq]
  constructor
  · rintro ⟨r, hr, c, hc, h1, h2⟩
    simp only [Int.ofNat_eq_coe] at h1 h2
    refine ⟨?_, ?_, ?_, ?_⟩ <;> omega
  · rintro ⟨h1, h2, h3, h4⟩
    refine ⟨a.toNat, by omega, b.toNat, by omega, ?_, ?_⟩ <;>
      rw [Int.ofNat_eq_coe] <;> omega

theorem length_population (numRows numCols : Int) :
    (population numRows numCols).length = numRows.toNat * numCols.toNat := by
  unfold population
  rw [List.length_flatMap]
  have h : ∀ r : Nat,
      (List.map (fun c => (Int.ofNat r, Int.ofNat c)) (List.range numCols.toNat)).length
        = numCols.toNat := by
    intro r
    rw [List.length_map, List.length_range]
  calc (List.map
          (fun r => (List.map (fun c => (Int.ofNat r, Int.ofNat c))
            (List.range numCols.toNat)).length)
          (List.range numRows.toNat)).sum
      = (List.map (fun _ => numCols.toNat) (List.range numRows.toNat)).sum := by
        rw [List.map_congr_left (fun r _ => h r)]
    _ = numRows.toNat * numCols.toNat := by
        rw [List.map_const', List.sum_replicate, List.length_range, smul_eq_mul]

/-- The `ValueError`s that the specification groups as `InvalidDimension`. -/
def isInvalidDimension (r : Except PyErr MinesweeperGame) : Prop :=
  r = .error (.valueError "num_rows must be positive") ∨
  r = .error (.valueError "num_cols must be positive")

/-- The `ValueError`s that the specification groups as `InvalidMineCount`:
the explicit non-negativity check, and the error `random.sample` raises when
`num_mines` exceeds the number of cells. -/
def isInvalidMineCount (r : Except PyErr MinesweeperGame) : Prop :=
  r = .error (.valueError "num_mines must be non-negative") ∨
  r = .error (.valueError "Sample larger than population or is negative")

/-- Terminal cell states in the specification's sense: a revealed neighbour
count (`Revealed`), a detonated mine, or an invalid reveal. -/
def isTerminal : Cell → Bool
  | Cell.num _ => true
  | Cell.mine => true
  | Cell.lava => true
  | _ => false

/-- Number of mine positions among the up-to-8 Moore-neighbourhood cells of
`p`, `p` itself excluded — the value the specification says
`neighbor_count[p]` holds. -/
def mooreMineCount (mines : Finset Pos) (p : Pos) : Nat :=
  (mines.filter (fun m => m ∈ block3 p ∧ m ≠ p)).card

/-- A 1×1 board with no mines, as built by `MinesweeperGame(1, 1, 0)`. -/
def demo11 : MinesweeperGame :=
  { numRows := 1
    numCols := 1
    dead := false
    minePositions := ([] : List Pos).toFinset
    numNeighbors := initNumNeighbors 1 1 ([] : List Pos).toFinset
    board := fun _ => Cell.unknown
    dugCount := 0
    flagCount := 0
    recentlyPoked := [] }

theorem mkGame_demo11 : mkGame 1 1 0 [] = .ok demo11 := by rfl

/-- A 1×1 board whose only cell is a mine, `MinesweeperGame(1, 1, 1)`. -/
def demo11mine : MinesweeperGame :=
  { numRows := 1
    numCols := 1
    dead := false
    minePositions := ([((0 : Int), (0 : Int))] : List Pos).toFinset
    numNeighbors := initNumNeighbors 1 1 ([((0 : Int), (0 : Int))] : List Pos).toFinset
    board := fun _ => Cell.unknown
    dugCount := 0
    flagCount := 0
    recentlyPoked := [] }

theorem mkGame_demo11mine :
    mkGame 1 1 1 [((0 : Int), (0 : Int))] = .ok demo11mine := by rfl

/-- A 1×2 board with one mine at `(0, 1)`, `MinesweeperGame(1, 2, 1)` with a
sample that picked `(0, 1)`. -/
def demo12 : MinesweeperGame :=
  { numRows := 1
    numCols := 2
    dead := false
    minePositions := ([((0 : Int), (1 : Int))] : List Pos).toFinset
    numNeighbors := initNumNeighbors 1 2 ([((0 : Int), (1 : Int))] : List Pos).toFinset
    board := fun _ => Cell.unknown
    dugCount := 0
    flagCount := 0
    recentlyPoked := [] }

theorem mkGame_demo12 :
    mkGame 1 2 1 [((0 : Int), (1 : Int))] = .ok demo12 := by rfl

/-- C3: on a live board, revealing an in-bounds cell that is not a mine
position and whose state is already non-hidden turns that cell into `LAVA`
(`InvalidReveal`), sets `dead`, and returns `False` (`Died`); in particular,
after revealing any such cell a second time the board is dead. -/
theorem dig_invalid_redig (g : MinesweeperGame) (row col : Int)
    (hlive : g.dead = false)
    (hin : inB g.numRows g.numCols (row, col))
    (hmine : (row, col) ∉ g.minePositions)
    (hnh : g.board (row, col) ≠ Cell.unknown) :
    (Dig g row col).1.board (row, col) = Cell.lava ∧
    (Dig g row col).1.dead = true ∧
    (Dig g row col).2 = .ret false := by
  unfold Dig
  rw [hlive, if_neg Bool.false_ne_true, if_neg (not_not_intro hin), if_neg hmine,
    if_pos hnh]
  refine ⟨?_, rfl, rfl⟩
  simp

/-- A board that has already been revealed at its only cell; used to witness
the invalid-re-dig behaviour. -/
def reDigDemo : MinesweeperGame :=
  { numRows := 1
    numCols := 1
    dead := false
    minePositions := ∅
    numNeighbors := fun _ => 0
    board := fun _ => Cell.num 0
    dugCount := 1
    flagCount := 0
    recentlyPoked := [] }

theorem dig_invalid_redig_witness :
    reDigDemo.dead = false ∧ inB reDigDemo.numRows reDigDemo.numCols (0, 0) ∧
    ((0, 0) : Pos) ∉ reDigDemo.minePositions ∧
    reDigDemo.board (0, 0) ≠ Cell.unknown ∧
    ((Dig reDigDemo 0 0).1.board (0, 0) = Cell.lava ∧
     (Dig reDigDemo 0 0).1.dead = true ∧
     (Dig reDigDemo 0 0).2 = .ret false) :=
  ⟨rfl, by decide, by decide, by decide,
   dig_invalid_redig reDigDemo 0 0 rfl (by decide) (by decide) (by decide)⟩

/-- C10: on a dead board, `Dig` raises the dead-board `ValueError` for every
coordinate — out-of-bounds coordinates included, since the dead check comes
before the bounds check — and leaves the state unchanged. -/
theorem dig_dead_raises (g : MinesweeperGame) (row col : Int) (hd : g.dead = true) :
    Dig g row col = (g, .raised (.valueError "Whats dead can never dig")) := by
  unfold Dig
  rw [hd, if_pos rfl]

theorem dig_dead_raises_witness :
    (Dig demo12 0 1).1.dead = true ∧
    Dig (Dig demo12 0 1).1 5 (-7) =
      ((Dig demo12 0 1).1, .raised (.valueError "Whats dead can never dig")) :=
  ⟨by decide, dig_dead_raises (Dig demo12 0 1).1 5 (-7) (by decide)⟩

/-- C5 (code bug): an in-bounds `PlantFlag` call does not complete without
error.  It sets the cell to `FLAG` and increments `flag_count`, but then
`self.recently_poked.append(row, col)` raises `TypeError`, so the call never
returns normally and the cell is never recorded as touched. -/
theorem plantFlag_raises_type_error :
    (PlantFlag demo11 0 0).2 =
      some (PyErr.typeError "append() takes exactly one argument (2 given)") ∧
    (PlantFlag demo11 0 0).1.board (0, 0) = Cell.flag ∧
    (PlantFlag demo11 0 0).1.flagCount = 1 ∧
    (PlantFlag demo11 0 0).1.recentlyPoked = [] := by
  refine ⟨?_, ?_, ?_, ?_⟩ <;> decide

/-- C4 (code bug): on a 1×1 board whose only cell is a mine, construction
stores `num_neighbors[(0, 0)] = 1` — the loop increments the mine's own
cell — although the number of mines among the Moore neighbours of `(0, 0)`
excluding the cell itself is 0. -/
theorem numNeighbors_counts_mine_itself :
    demo11mine.numNeighbors (0, 0) = 1 ∧
    mooreMineCount demo11mine.minePositions (0, 0) = 0 := by
  refine ⟨?_, ?_⟩ <;> decide

theorem toNat_mul_cast (numRows numCols : Int) (hr : 1 ≤ numRows) (hc : 1 ≤ numCols) :
    ((numRows.toNat * numCols.toNat : Nat) : Int) = numRows * numCols := by
  push_cast
  rw [Int.toNat_of_nonneg (by omega), Int.toNat_of_nonneg (by omega)]

/-- C6: construction fails with an `InvalidDimension` error when a dimension
is below 1, fails with an `InvalidMineCount` error when the mine count is
negative or exceeds `rows*cols`, and for every valid triple it returns a
board with exactly `num_mines` distinct in-bounds mine positions; failures
return an error value, never a partial board. -/
theorem mkGame_cases (numRows numCols numMines : Int) (sample : List Pos) :
    (numRows < 1 ∨ numCols < 1 →
      isInvalidDimension (mkGame numRows numCols numMines sample)) ∧
    (1 ≤ numRows → 1 ≤ numCols → numMines < 0 ∨ numRows * numCols < numMines →
      isInvalidMineCount (mkGame numRows numCols numMines sample)) ∧
    (1 ≤ numRows → 1 ≤ numCols → 0 ≤ numMines → numMines ≤ numRows * numCols →
      SampleOk numRows numCols numMines sample →
      ∃ g, mkGame numRows numCols numMines sample = .ok g ∧
        (g.minePositions.card : Int) = numMines ∧
        ∀ m ∈ g.minePositions, inB numRows numCols m) := by
  refine ⟨?_, ?_, ?_⟩
  · intro h
    unfold mkGame isInvalidDimension
    by_cases h1 : numRows < 1
    · rw [if_pos h1]
      left
      rfl
    · rw [if_neg h1, if_pos (by omega)]
      right
      rfl
  · intro hr hc h
    unfold mkGame isInvalidMineCount
    rw [if_neg (by omega), if_neg (by omega)]
    rcases h with h | h
    · rw [if_pos h]
      left
      rfl
    · have hlen : (population numRows numCols).length < numMines.toNat := by
        rw [length_population]
        exact Int.lt_toNat.mpr (by rw [toNat_mul_cast _ _ hr hc]; omega)
      rw [if_neg (by omega), if_pos hlen]
      right
      rfl
  · intro hr hc hm hle hs
    have hlen : ¬ (population numRows numCols).length < numMines.toNat := by
      rw [length_population]
      push_neg
      exact Int.toNat_le.mpr (by rw [toNat_mul_cast _ _ hr hc]; omega)
    unfold mkGame
    rw [if_neg (by omega), if_neg (by omega), if_neg (by omega), if_neg hlen]
    refine ⟨_, rfl, ?_, ?_⟩
    · rw [List.toFinset_card_of_nodup hs.1, hs.2.1]
      omega
    · intro m hm2
      exact mem_population.mp (hs.2.2 m (List.mem_toFinset.mp hm2))

theorem mkGame_cases_witness :
    isInvalidDimension (mkGame 0 2 1 []) ∧
    isInvalidMineCount (mkGame 1 1 (-1) []) ∧
    isInvalidMineCount (mkGame 1 1 5 []) ∧
    (∃ g, mkGame 1 2 1 [((0 : Int), (1 : Int))] = .ok g ∧
      (g.minePositions.card : Int) = 1 ∧ ∀ m ∈ g.minePositions, inB 1 2 m) :=
  ⟨(mkGame_cases 0 2 1 []).1 (Or.inl (by omega)),
   (mkGame_cases 1 1 (-1) []).2.1 (by omega) (by omega) (Or.inl (by omega)),
   (mkGame_cases 1 1 5 []).2.1 (by omega) (by omega) (Or.inr (by omega)),
   (mkGame_cases 1 2 1 [((0 : Int), (1 : Int))]).2.2
     (by omega) (by omega) (by omega) (by omega) ⟨by decide, by decide, by decide⟩⟩

/-- C9 counterexample: on the 1×2 board with its mine at `(0, 1)`, revealing
`(0, 0)` succeeds and makes the win condition true, yet after the call the
mine cell — still `UNKNOWN` at the moment the win condition became true,
i.e. in the pre-win-check state `digReveal demo12 0 0` — has been mutated to
`FLAG` by the win branch. -/
theorem dig_win_mutates_cex :
    (Dig demo12 0 0).2 = .ret true ∧
    Won (digReveal demo12 0 0) = true ∧
    (digReveal demo12 0 0).board (0, 1) = Cell.unknown ∧
    (Dig demo12 0 0).1.board (0, 1) = Cell.flag := by
  refine ⟨?_, ?_, ?_, ?_⟩ <;> decide

/-- C9 amended: when a successful reveal makes the win condition true, the
only further mutation in that call is that every mine-position cell is set
to `FLAG`; `dug_count`, `flag_count`, `dead`, `recently_poked` and every
non-mine cell are exactly as at the moment the win condition became true. -/
theorem dig_win_frame (g : MinesweeperGame) (row col : Int)
    (h1 : g.dead = false) (h2 : inB g.numRows g.numCols (row, col))
    (h3 : (row, col) ∉ g.minePositions) (h4 : g.board (row, col) = Cell.unknown)
    (hw : Won (digReveal g row col) = true) :
    (Dig g row col).2 = .ret true ∧
    (Dig g row col).1.dugCount = (digReveal g row col).dugCount ∧
    (Dig g row col).1.flagCount = (digReveal g row col).flagCount ∧
    (Dig g row col).1.dead = (digReveal g row col).dead ∧
    (Dig g row col).1.recentlyPoked = (digReveal g row col).recentlyPoked ∧
    (∀ p, p ∉ g.minePositions → (Dig g row col).1.board p = (digReveal g row col).board p) ∧
    (∀ p ∈ g.minePositions, (Dig g row col).1.board p = Cell.flag) := by
  have hdig : Dig g row col =
      ({ digReveal g row col with
          board := fun q => if q ∈ (digReveal g row col).minePositions then Cell.flag
            else (digReveal g row col).board q }, .ret true) := by
    unfold Dig
    rw [h1, if_neg Bool.false_ne_true, if_neg (not_not_intro h2), if_neg h3,
      if_neg (not_not_intro h4)]
    simp only []
    rw [if_pos hw]
  have hmp : (digReveal g row col).minePositions = g.minePositions := rfl
  rw [hdig]
  refine ⟨rfl, rfl, rfl, rfl, rfl, ?_, ?_⟩
  · intro p hp
    simp only [hmp]
    exact if_neg hp
  · intro p hp
    simp only [hmp]
    exact if_pos hp

theorem dig_win_frame_witness :
    Won (digReveal demo12 0 0) = true ∧ (Dig demo12 0 0).2 = .ret true :=
  ⟨by decide,
   (dig_win_frame demo12 0 0 rfl (by decide) (by decide) rfl (by decide)).1⟩

/-- C8 counterexample: the 1×1 no-mine board is reachable, and so is the
state after flagging its only cell twice; that state has `dug_count = 0` and
`flag_count = 2`, so `dug_count + flag_count` exceeds `rows*cols = 1`
(`flag_count` is incremented even when re-flagging an already flagged cell). -/
theorem dug_flag_bound_cex :
    Reachable (PlantFlag (PlantFlag demo11 0 0).1 0 0).1 ∧
    (PlantFlag (PlantFlag demo11 0 0).1 0 0).1.dugCount = 0 ∧
    (PlantFlag (PlantFlag demo11 0 0).1 0 0).1.flagCount = 2 ∧
    (PlantFlag (PlantFlag demo11 0 0).1 0 0).1.numRows *
      (PlantFlag (PlantFlag demo11 0 0).1 0 0).1.numCols = 1 := by
  refine ⟨?_, by decide, by decide, by decide⟩
  exact Reachable.flag _ 0 0 (Reachable.flag _ 0 0
    (Reachable.init 1 1 0 [] demo11 ⟨by decide, by decide, by decide⟩ mkGame_demo11))

/-- C7 counterexample: after revealing `(0, 0)` on the 1×2 one-mine board the
cell is in the terminal state `Revealed(1)` and the board is live and won;
revealing the same cell again — a further reveal operation — changes that
terminal cell to `LAVA` (`InvalidReveal`).  The resulting state is reachable. -/
theorem terminal_changes_cex :
    Reachable (Dig (Dig demo12 0 0).1 0 0).1 ∧
    (Dig demo12 0 0).1.board (0, 0) = Cell.num 1 ∧
    isTerminal ((Dig demo12 0 0).1.board (0, 0)) = true ∧
    (Dig (Dig demo12 0 0).1 0 0).1.board (0, 0) = Cell.lava := by
  refine ⟨?_, by decide, by decide, by decide⟩
  exact Reachable.dig _ 0 0 (Reachable.dig _ 0 0
    (Reachable.init 1 2 1 [((0 : Int), (1 : Int))] demo12
      ⟨by decide, by decide, by decide⟩ mkGame_demo12))

/-- Number of in-bounds cells that are not mine positions and not `UNKNOWN`.
Each `dug_count` increment reveals a fresh such cell, so this quantity
bounds `dug_count` on reachable states. -/
def revealedNonMineCard (numRows numCols : Int) (mines : Finset Pos)
    (board : Pos → Cell) : Nat :=
  ((cellsOf numRows numCols).filter
    (fun p => p ∉ mines ∧ board p ≠ Cell.unknown)).card

theorem revealedNonMineCard_update (numRows numCols : Int) (mines : Finset Pos)
    (board : Pos → Cell) (p : Pos) (c : Cell) (hp : p ∈ cellsOf numRows numCols)
    (hm : p ∉ mines) (hu : board p = Cell.unknown) (hc : c ≠ Cell.unknown) :
    revealedNonMineCard numRows numCols mines
        (fun q => if q = p then c else board q) =
      revealedNonMineCard numRows numCols mines board + 1 := by
  unfold revealedNonMineCard
  have hset : (cellsOf numRows numCols).filter
        (fun q => q ∉ mines ∧ (if q = p then c else board q) ≠ Cell.unknown) =
      insert p ((cellsOf numRows numCols).filter
        (fun q => q ∉ mines ∧ board q ≠ Cell.unknown)) := by
    ext q
    simp only [Finset.mem_filter, Finset.mem_insert]
    constructor
    · rintro ⟨hq1, hq2, hq3⟩
      by_cases hqp : q = p
      · exact Or.inl hqp
      · rw [if_neg hqp] at hq3
        exact Or.inr ⟨hq1, hq2, hq3⟩
    · rintro (hqp | ⟨hq1, hq2, hq3⟩)
      · subst hqp
        exact ⟨hp, hm, by rw [if_pos rfl]; exact hc⟩
      · by_cases hqp : q = p
        · subst hqp
          exact ⟨hp, hm, by rw [if_pos rfl]; exact hc⟩
        · exact ⟨hq1, hq2, by rw [if_neg hqp]; exact hq3⟩
  rw [hset, Finset.card_insert_of_not_mem (by simp [Finset.mem_filter, hu])]

theorem floodStep_convert {numRows numCols : Int} {nn : Pos → Nat} {mines : Finset Pos}
    {board board2 outB : Pos → Cell} {p : Pos} {outD dug : Nat}
    (hb2 : board2 = fun q => if q = p then Cell.num (nn p) else board q)
    (hpunk : board p = Cell.unknown) (hpnm : p ∉ mines)
    (hpcell : p ∈ cellsOf numRows numCols)
    (G1 : ∀ q, outB q = board2 q ∨ (board2 q = Cell.unknown ∧ outB q = Cell.num (nn q)))
    (G2 : ∀ q ∈ mines, outB q = board2 q)
    (G3 : outD + revealedNonMineCard numRows numCols mines board2 ≤
        (dug + 1) + revealedNonMineCard numRows numCols mines outB) :
    (∀ q, outB q = board q ∨ (board q = Cell.unknown ∧ outB q = Cell.num (nn q))) ∧
    (∀ q ∈ mines, outB q = board q) ∧
    (outD + revealedNonMineCard numRows numCols mines board ≤
        dug + revealedNonMineCard numRows numCols mines outB) := by
  subst hb2
  have G1b : ∀ q, outB q = (if q = p then Cell.num (nn p) else board q) ∨
      ((if q = p then Cell.num (nn p) else board q) = Cell.unknown ∧
        outB q = Cell.num (nn q)) := fun q => G1 q
  have G2b : ∀ q ∈ mines, outB q = (if q = p then Cell.num (nn p) else board q) :=
    fun q hq => G2 q hq
  refine ⟨?_, ?_, ?_⟩
  · intro q
    by_cases hqp : q = p
    · subst hqp
      rcases G1b q with h | ⟨h1, h2⟩
      · rw [if_pos rfl] at h
        exact Or.inr ⟨hpunk, h⟩
      · rw [if_pos rfl] at h1
        exact absurd h1 (by simp)
    · rcases G1b q with h | ⟨h1, h2⟩
      · rw [if_neg hqp] at h
        exact Or.inl h
      · rw [if_neg hqp] at h1
        exact Or.inr ⟨h1, h2⟩
  · intro q hq
    have hqp : q ≠ p := fun h => hpnm (h ▸ hq)
    rw [G2b q hq, if_neg hqp]
  · rw [revealedNonMineCard_update numRows numCols mines board p (Cell.num (nn p))
      hpcell hpnm hpunk (by simp)] at G3
    omega

/-- Main flood-fill loop invariants, all at once: (1) the loop changes only
cells that were `UNKNOWN`, and changes them to their stored neighbour count;
(2) mine cells are untouched, provided no stacked cell is a mine and no
zero-count cell has a mine in its 3×3 block; (3) the dig counter grows by at
most the number of newly revealed in-bounds non-mine cells; (4) on exit,
no revealed zero-count cell has an `UNKNOWN` in-bounds cell in its block. -/
theorem floodLoop_spec (numRows numCols : Int) (nn : Pos → Nat) (mines : Finset Pos)
    (Hzm : ∀ x, inB numRows numCols x → nn x = 0 → ∀ q ∈ block3 x, q ∉ mines)
    (board : Pos → Cell) (dug : Nat) (seen : Finset Pos) (stack : List Pos)
    (hv : ∀ q ∈ stack, q ∈ cellsOf numRows numCols) :
    (∀ q ∈ stack, board q = Cell.unknown ∨ q ∈ seen) →
    (∀ q ∈ seen, board q = Cell.num (nn q)) →
    (∀ q ∈ stack, q ∉ mines) →
    (∀ x, inB numRows numCols x → board x = Cell.num 0 →
      ∀ q ∈ block3 x, inB numRows numCols q → board q = Cell.unknown → q ∈ stack) →
    (∀ q, (floodLoop numRows numCols nn board dug seen stack hv).1 q = board q ∨
       (board q = Cell.unknown ∧
        (floodLoop numRows numCols nn board dug seen stack hv).1 q = Cell.num (nn q))) ∧
    (∀ q ∈ mines, (floodLoop numRows numCols nn board dug seen stack hv).1 q = board q) ∧
    ((floodLoop numRows numCols nn board dug seen stack hv).2 +
       revealedNonMineCard numRows numCols mines board ≤
     dug + revealedNonMineCard numRows numCols mines
       (floodLoop numRows numCols nn board dug seen stack hv).1) ∧
    (∀ x, inB numRows numCols x →
      (floodLoop numRows numCols nn board dug seen stack hv).1 x = Cell.num 0 →
      ∀ q ∈ block3 x, inB numRows numCols q →
      (floodLoop numRows numCols nn board dug seen stack hv).1 q ≠ Cell.unknown) := by
  induction board, dug, seen, stack, hv using floodLoop.induct numRows numCols nn with
  | case1 board dug seen hv hvdup =>
    intro HS Hseen Hnm HP
    simp only [floodLoop]
    refine ⟨?_, ?_, ?_, ?_⟩
    · intro q
      exact Or.inl (by trivial)
    · intro q _
      trivial
    · trivial
    · intro x hx hx0 q hq hqin hqu
      exact List.not_mem_nil q (HP x hx hx0 q hq hqin hqu)
  | case2 board dug seen p rest hv hp hvdup IH =>
    intro HS Hseen Hnm HP
    simp only [floodLoop]
    rw [dif_pos hp]
    apply IH
    · intro q hq
      exact HS q (List.mem_cons_of_mem p hq)
    · exact Hseen
    · intro q hq
      exact Hnm q (List.mem_cons_of_mem p hq)
    · intro x hx hx0 q hq hqin hqu
      have h2 := HP x hx hx0 q hq hqin hqu
      rcases List.mem_cons.mp h2 with h3 | h3
      · subst h3
        rw [Hseen q hp] at hqu
        exact absurd hqu (by simp)
      · exact h3
  | case3 board dug seen p rest hv hnp np board2 h0 hvdup IH =>
    intro HS Hseen Hnm HP
    have h0' : nn p = 0 := h0
    have hb2 : board2 = fun q => if q = p then Cell.num (nn p) else board q := rfl
    have hpunk : board p = Cell.unknown := by
      rcases HS p (List.mem_cons_self p rest) with h | h
      · exact h
      · exact absurd h hnp
    have hpcell : p ∈ cellsOf numRows numCols := hv p (List.mem_cons_self p rest)
    have hpin : inB numRows numCols p := mem_cellsOf.mp hpcell
    have hpnm : p ∉ mines := Hnm p (List.mem_cons_self p rest)
    have HS2 : ∀ q ∈ (((block3 p).filter
          (fun q => decide (inB numRows numCols q ∧ board2 q = Cell.unknown))).reverse
            ++ rest),
        board2 q = Cell.unknown ∨ q ∈ insert p seen := by
      intro q hq
      rcases List.mem_append.mp hq with h | h
      · exact Or.inl (of_decide_eq_true (List.mem_filter.mp (List.mem_reverse.mp h)).2).2
      · rcases HS q (List.mem_cons_of_mem p h) with h2 | h2
        · by_cases hqp : q = p
          · subst hqp
            exact Or.inr (Finset.mem_insert_self q seen)
          · refine Or.inl ?_
            rw [hb2]
            simpa [hqp] using h2
        · exact Or.inr (Finset.mem_insert_of_mem h2)
    have Hseen2 : ∀ q ∈ insert p seen, board2 q = Cell.num (nn q) := by
      intro q hq
      rcases Finset.mem_insert.mp hq with h | h
      · subst h
        rw [hb2]
        simp
      · have hqp : q ≠ p := fun he => hnp (he ▸ h)
        rw [hb2]
        simp only [if_neg hqp]
        exact Hseen q h
    have Hnm2 : ∀ q ∈ (((block3 p).filter
          (fun q => decide (inB numRows numCols q ∧ board2 q = Cell.unknown))).reverse
            ++ rest), q ∉ mines := by
      intro q hq
      rcases List.mem_append.mp hq with h | h
      · exact Hzm p hpin h0' q (List.mem_filter.mp (List.mem_reverse.mp h)).1
      · exact Hnm q (List.mem_cons_of_mem p h)
    have HP2 : ∀ x, inB numRows numCols x → board2 x = Cell.num 0 →
        ∀ q ∈ block3 x, inB numRows numCols q → board2 q = Cell.unknown →
        q ∈ (((block3 p).filter
          (fun q => decide (inB numRows numCols q ∧ board2 q = Cell.unknown))).reverse
            ++ rest) := by
      intro x hx hx0 q hq hqin hqu
      have hqp : q ≠ p := by
        intro he
        rw [hb2] at hqu
        rw [he] at hqu
        simp at hqu
      by_cases hxp : x = p
      · subst hxp
        refine List.mem_append.mpr (Or.inl ?_)
        exact List.mem_reverse.mpr (List.mem_filter.mpr ⟨hq, decide_eq_true ⟨hqin, hqu⟩⟩)
      · have hx0' : board x = Cell.num 0 := by
          rw [hb2] at hx0
          simpa [hxp] using hx0
        have hqu' : board q = Cell.unknown := by
          rw [hb2] at hqu
          simpa [hqp] using hqu
        have h2 := HP x hx hx0' q hq hqin hqu'
        rcases List.mem_cons.mp h2 with h3 | h3
        · exact absurd h3 hqp
        · exact List.mem_append.mpr (Or.inr h3)
    obtain ⟨G1, G2, G3, G4⟩ := IH HS2 Hseen2 Hnm2 HP2
    have hconv := floodStep_convert hb2 hpunk hpnm hpcell G1 G2 G3
    simp only [floodLoop]
    rw [dif_neg hnp, if_pos h0']
    exact ⟨hconv.1, hconv.2.1, hconv.2.2, G4⟩
  | case4 board dug seen p rest hv hnp np board2 h0 hvdup IH =>
    intro HS Hseen Hnm HP
    have h0' : ¬ nn p = 0 := h0
    have hb2 : board2 = fun q => if q = p then Cell.num (nn p) else board q := rfl
    have hpunk : board p = Cell.unknown := by
      rcases HS p (List.mem_cons_self p rest) with h | h
      · exact h
      · exact absurd h hnp
    have hpcell : p ∈ cellsOf numRows numCols := hv p (List.mem_cons_self p rest)
    have hpnm : p ∉ mines := Hnm p (List.mem_cons_self p rest)
    have HS2 : ∀ q ∈ rest, board2 q = Cell.unknown ∨ q ∈ insert p seen := by
      intro q hq
      rcases HS q (List.mem_cons_of_mem p hq) with h2 | h2
      · by_cases hqp : q = p
        · subst hqp
          exact Or.inr (Finset.mem_insert_self q seen)
        · refine Or.inl ?_
          rw [hb2]
          simpa [hqp] using h2
      · exact Or.inr (Finset.mem_insert_of_mem h2)
    have Hseen2 : ∀ q ∈ insert p seen, board2 q = Cell.num (nn q) := by
      intro q hq
      rcases Finset.mem_insert.mp hq with h | h
      · subst h
        rw [hb2]
        simp
      · have hqp : q ≠ p := fun he => hnp (he ▸ h)
        rw [hb2]
        simp only [if_neg hqp]
        exact Hseen q h
    have Hnm2 : ∀ q ∈ rest, q ∉ mines := fun q hq => Hnm q (List.mem_cons_of_mem p hq)
    have HP2 : ∀ x, inB numRows numCols x → board2 x = Cell.num 0 →
        ∀ q ∈ block3 x, inB numRows numCols q → board2 q = Cell.unknown →
        q ∈ rest := by
      intro x hx hx0 q hq hqin hqu
      have hqp : q ≠ p := by
        intro he
        rw [hb2] at hqu
        rw [he] at hqu
        simp at hqu
      by_cases hxp : x = p
      · subst hxp
        have hx0b : nn x = 0 := by
          have h := hx0
          rw [hb2] at h
          simpa using h
        exact absurd hx0b h0'
      · have hx0' : board x = Cell.num 0 := by
          rw [hb2] at hx0
          simpa [hxp] using hx0
        have hqu' : board q = Cell.unknown := by
          rw [hb2] at hqu
          simpa [hqp] using hqu
        have h2 := HP x hx hx0' q hq hqin hqu'
        rcases List.mem_cons.mp h2 with h3 | h3
        · exact absurd h3 hqp
        · exact h3
    obtain ⟨G1, G2, G3, G4⟩ := IH HS2 Hseen2 Hnm2 HP2
    have hconv := floodStep_convert hb2 hpunk hpnm hpcell G1 G2 G3
    simp only [floodLoop]
    rw [dif_neg hnp, if_neg h0']
    exact ⟨hconv.1, hconv.2.1, hconv.2.2, G4⟩

theorem revealedNonMineCard_mono (numRows numCols : Int) (mines : Finset Pos)
    (b b2 : Pos → Cell) (h : ∀ p, b p ≠ Cell.unknown → b2 p ≠ Cell.unknown) :
    revealedNonMineCard numRows numCols mines b ≤
      revealedNonMineCard numRows numCols mines b2 := by
  unfold revealedNonMineCard
  apply Finset.card_le_card
  intro p hp
  rw [Finset.mem_filter] at hp ⊢
  exact ⟨hp.1, hp.2.1, h p hp.2.2⟩

theorem revealedNonMineCard_congr (numRows numCols : Int) (mines : Finset Pos)
    (b b2 : Pos → Cell) (h : ∀ p, p ∉ mines → b2 p = b p) :
    revealedNonMineCard numRows numCols mines b2 =
      revealedNonMineCard numRows numCols mines b := by
  unfold revealedNonMineCard
  congr 1
  apply Finset.filter_congr
  intro p _
  by_cases hm : p ∈ mines
  · simp [hm]
  · rw [h p hm]

/-- State invariants maintained by construction, `PlantFlag` and `Dig`; they
hold in every reachable state. -/
structure GameInv (g : MinesweeperGame) : Prop where
  rows_pos : 1 ≤ g.numRows
  cols_pos : 1 ≤ g.numCols
  mines_sub : ∀ m ∈ g.minePositions, inB g.numRows g.numCols m
  nn_eq : ∀ p, inB g.numRows g.numCols p →
    g.numNeighbors p = (g.minePositions.filter (fun m => p ∈ block3 m)).card
  board_num : ∀ p, inB g.numRows g.numCols p → ∀ n, g.board p = Cell.num n →
    n = g.numNeighbors p
  mine_cell : ∀ p ∈ g.minePositions,
    (∀ n, g.board p ≠ Cell.num n) ∧ g.board p ≠ Cell.lava
  live_clean : g.dead = false → ∀ p, g.board p ≠ Cell.mine ∧ g.board p ≠ Cell.lava
  zero_closed : ∀ p, inB g.numRows g.numCols p → g.board p = Cell.num 0 →
    ∀ q ∈ block3 p, inB g.numRows g.numCols q → g.board q ≠ Cell.unknown
  dug_le : g.dugCount ≤
    revealedNonMineCard g.numRows g.numCols g.minePositions g.board

/-- Consequence of `nn_eq`: a zero-count in-bounds cell has no mine anywhere in
its 3×3 block. -/
theorem zero_no_mines (g : MinesweeperGame) (hI : GameInv g) :
    ∀ x, inB g.numRows g.numCols x → g.numNeighbors x = 0 →
      ∀ q ∈ block3 x, q ∉ g.minePositions := by
  intro x hx hx0 q hq hqm
  have h1 := hI.nn_eq x hx
  rw [hx0] at h1
  have h2 := Finset.card_eq_zero.mp h1.symm
  have h3 : q ∈ g.minePositions.filter (fun m => x ∈ block3 m) :=
    Finset.mem_filter.mpr ⟨hqm, block3_symm.mp hq⟩
  rw [h2] at h3
  exact absurd h3 (Finset.not_mem_empty q)

/-- What the reveal path (`digReveal`) does to the state, given the branch
conditions of `Dig` and the state invariants: all fields but `board`,
`dug_count` and `recently_poked` are unchanged; the board changes only by
writing neighbour counts into previously `UNKNOWN` cells (the dug cell
itself included); mine cells are untouched; the dig counter stays bounded by
the number of revealed non-mine cells; and afterwards no revealed
zero-count cell has an `UNKNOWN` in-bounds cell in its 3×3 block. -/
theorem digReveal_spec (g : MinesweeperGame) (row col : Int)
    (hI : GameInv g) (hin : inB g.numRows g.numCols (row, col))
    (hmine : (row, col) ∉ g.minePositions)
    (hunk : g.board (row, col) = Cell.unknown) :
    (digReveal g row col).numRows = g.numRows ∧
    (digReveal g row col).numCols = g.numCols ∧
    (digReveal g row col).dead = g.dead ∧
    (digReveal g row col).minePositions = g.minePositions ∧
    (digReveal g row col).numNeighbors = g.numNeighbors ∧
    (digReveal g row col).flagCount = g.flagCount ∧
    (∀ q, (digReveal g row col).board q =
        (if q = (row, col) then Cell.num (g.numNeighbors (row, col)) else g.board q) ∨
      ((if q = (row, col) then Cell.num (g.numNeighbors (row, col)) else g.board q)
          = Cell.unknown ∧
        (digReveal g row col).board q = Cell.num (g.numNeighbors q))) ∧
    (∀ q ∈ g.minePositions, (digReveal g row col).board q = g.board q) ∧
    ((digReveal g row col).dugCount ≤
      revealedNonMineCard g.numRows g.numCols g.minePositions
        (digReveal g row col).board) ∧
    (∀ x, inB g.numRows g.numCols x → (digReveal g row col).board x = Cell.num 0 →
      ∀ q ∈ block3 x, inB g.numRows g.numCols q →
        (digReveal g row col).board q ≠ Cell.unknown) := by
  have hupd := revealedNonMineCard_update g.numRows g.numCols g.minePositions g.board
    (row, col) (Cell.num (g.numNeighbors (row, col))) (mem_cellsOf.mpr hin) hmine hunk
    (by simp)
  by_cases h0 : g.numNeighbors (row, col) = 0
  · have Hzm := zero_no_mines g hI
    have hmain := floodLoop_spec g.numRows g.numCols g.numNeighbors g.minePositions Hzm
      (fun q => if q = (row, col) then Cell.num (g.numNeighbors (row, col)) else g.board q)
      g.dugCount ∅
      (((block3 (row, col)).filter
        (fun q => decide (inB g.numRows g.numCols q ∧
          (if q = (row, col) then Cell.num (g.numNeighbors (row, col)) else g.board q)
            = Cell.unknown))).reverse)
      (by
        intro q hq
        have h2 := (List.mem_filter.mp (List.mem_reverse.mp hq)).2
        exact mem_cellsOf.mpr (of_decide_eq_true h2).1)
      (by
        intro q hq
        exact Or.inl (of_decide_eq_true
          (List.mem_filter.mp (List.mem_reverse.mp hq)).2).2)
      (by
        intro q hq
        exact absurd hq (Finset.not_mem_empty q))
      (by
        intro q hq
        exact Hzm (row, col) hin h0 q (List.mem_filter.mp (List.mem_reverse.mp hq)).1)
      (by
        intro x hx hx0 q hq hqin hqu
        have hx0b : (if x = (row, col) then Cell.num (g.numNeighbors (row, col))
            else g.board x) = Cell.num 0 := hx0
        have hqub : (if q = (row, col) then Cell.num (g.numNeighbors (row, col))
            else g.board q) = Cell.unknown := hqu
        by_cases hxt : x = (row, col)
        · subst hxt
          exact List.mem_reverse.mpr
            (List.mem_filter.mpr ⟨hq, decide_eq_true ⟨hqin, hqu⟩⟩)
        · rw [if_neg hxt] at hx0b
          by_cases hqt : q = (row, col)
          · rw [if_pos hqt] at hqub
            exact absurd hqub (by simp)
          · rw [if_neg hqt] at hqub
            exact absurd hqub (hI.zero_closed x hx hx0b q hq hqin))
    obtain ⟨F1, F2, F3, F4⟩ := hmain
    have hb : (digReveal g row col).board =
        (floodLoop g.numRows g.numCols g.numNeighbors
          (fun q => if q = (row, col) then Cell.num (g.numNeighbors (row, col))
            else g.board q)
          g.dugCount ∅
          (((block3 (row, col)).filter
            (fun q => decide (inB g.numRows g.numCols q ∧
              (if q = (row, col) then Cell.num (g.numNeighbors (row, col))
                else g.board q) = Cell.unknown))).reverse)
          (by
            intro q hq
            have h2 := (List.mem_filter.mp (List.mem_reverse.mp hq)).2
            exact mem_cellsOf.mpr (of_decide_eq_true h2).1)).1 := by
      unfold digReveal
      simp only []
      rw [if_pos h0]
    have hd : (digReveal g row col).dugCount =
        (floodLoop g.numRows g.numCols g.numNeighbors
          (fun q => if q = (row, col) then Cell.num (g.numNeighbors (row, col))
            else g.board q)
          g.dugCount ∅
          (((block3 (row, col)).filter
            (fun q => decide (inB g.numRows g.numCols q ∧
              (if q = (row, col) then Cell.num (g.numNeighbors (row, col))
                else g.board q) = Cell.unknown))).reverse)
          (by
            intro q hq
            have h2 := (List.mem_filter.mp (List.mem_reverse.mp hq)).2
            exact mem_cellsOf.mpr (of_decide_eq_true h2).1)).2 + 1 := by
      unfold digReveal
      simp only []
      rw [if_pos h0]
    refine ⟨rfl, rfl, rfl, rfl, rfl, rfl, ?_, ?_, ?_, ?_⟩
    · intro q
      rw [hb]
      exact F1 q
    · intro q hq
      have hqt : q ≠ (row, col) := fun he => hmine (he ▸ hq)
      rw [hb, F2 q hq]
      exact if_neg hqt
    · rw [hb, hd]
      rw [hupd] at F3
      have hdug := hI.dug_le
      omega
    · intro x hx
      rw [hb]
      exact F4 x hx
  · have hb : (digReveal g row col).board =
        fun q => if q = (row, col) then Cell.num (g.numNeighbors (row, col))
          else g.board q := by
      unfold digReveal
      simp only []
      rw [if_neg h0]
    have hd : (digReveal g row col).dugCount = g.dugCount + 1 := by
      unfold digReveal
      simp only []
      rw [if_neg h0]
    refine ⟨rfl, rfl, rfl, rfl, rfl, rfl, ?_, ?_, ?_, ?_⟩
    · intro q
      rw [hb]
      exact Or.inl rfl
    · intro q hq
      have hqt : q ≠ (row, col) := fun he => hmine (he ▸ hq)
      rw [hb]
      exact if_neg hqt
    · rw [hb, hd, hupd]
      have hdug := hI.dug_le
      omega
    · intro x hx hx0 q hq hqin hqu
      have hx0b : (if x = (row, col) then Cell.num (g.numNeighbors (row, col))
          else g.board x) = Cell.num 0 := by
        rw [hb] at hx0
        exact hx0
      have hqub : (if q = (row, col) then Cell.num (g.numNeighbors (row, col))
          else g.board q) = Cell.unknown := by
        rw [hb] at hqu
        exact hqu
      by_cases hxt : x = (row, col)
      · rw [if_pos hxt, Cell.num.injEq] at hx0b
        exact absurd hx0b h0
      · rw [if_neg hxt] at hx0b
        by_cases hqt : q = (row, col)
        · rw [if_pos hqt] at hqub
          exact absurd hqub (by simp)
        · rw [if_neg hqt] at hqub
          exact absurd hqub (hI.zero_closed x hx hx0b q hq hqin)

/-- Overwriting one cell with a non-`UNKNOWN`, non-count value (a flag, a
detonated mine, or lava) preserves the state invariants, as long as a mine
cell never receives `LAVA` and a live result holds no `MINE`/`LAVA`. -/
theorem inv_overwrite (g : MinesweeperGame) (t : Pos) (c : Cell) (d : Bool) (fc : Nat)
    (hI : GameInv g) (hcu : c ≠ Cell.unknown) (hcn : ∀ n, c ≠ Cell.num n)
    (hml : t ∈ g.minePositions → c ≠ Cell.lava)
    (hlive : d = false → c ≠ Cell.mine ∧ c ≠ Cell.lava)
    (hdg : d = false → g.dead = false) :
    GameInv { g with
        board := fun q => if q = t then c else g.board q
        dead := d
        flagCount := fc } := by
  refine ⟨hI.rows_pos, hI.cols_pos, hI.mines_sub, hI.nn_eq, ?_, ?_, ?_, ?_, ?_⟩
  · intro p hp n hn
    have hnb : (if p = t then c else g.board p) = Cell.num n := hn
    by_cases hpt : p = t
    · rw [if_pos hpt] at hnb
      exact absurd hnb (hcn n)
    · rw [if_neg hpt] at hnb
      exact hI.board_num p hp n hnb
  · intro p hp
    constructor
    · intro n hn
      have hnb : (if p = t then c else g.board p) = Cell.num n := hn
      by_cases hpt : p = t
      · rw [if_pos hpt] at hnb
        exact hcn n hnb
      · rw [if_neg hpt] at hnb
        exact (hI.mine_cell p hp).1 n hnb
    · intro hn
      have hnb : (if p = t then c else g.board p) = Cell.lava := hn
      by_cases hpt : p = t
      · rw [if_pos hpt] at hnb
        exact hml (hpt ▸ hp) hnb
      · rw [if_neg hpt] at hnb
        exact (hI.mine_cell p hp).2 hnb
  · intro hdf p
    have hg := hI.live_clean (hdg hdf)
    constructor
    · intro hn
      have hnb : (if p = t then c else g.board p) = Cell.mine := hn
      by_cases hpt : p = t
      · rw [if_pos hpt] at hnb
        exact (hlive hdf).1 hnb
      · rw [if_neg hpt] at hnb
        exact (hg p).1 hnb
    · intro hn
      have hnb : (if p = t then c else g.board p) = Cell.lava := hn
      by_cases hpt : p = t
      · rw [if_pos hpt] at hnb
        exact (hlive hdf).2 hnb
      · rw [if_neg hpt] at hnb
        exact (hg p).2 hnb
  · intro p hp hp0 q hq hqin hqu
    have hp0b : (if p = t then c else g.board p) = Cell.num 0 := hp0
    have hqub : (if q = t then c else g.board q) = Cell.unknown := hqu
    by_cases hpt : p = t
    · rw [if_pos hpt] at hp0b
      exact hcn 0 hp0b
    · rw [if_neg hpt] at hp0b
      by_cases hqt : q = t
      · rw [if_pos hqt] at hqub
        exact hcu hqub
      · rw [if_neg hqt] at hqub
        exact hI.zero_closed p hp hp0b q hq hqin hqub
  · refine le_trans hI.dug_le (revealedNonMineCard_mono _ _ _ _ _ ?_)
    intro p hpne
    show (if p = t then c else g.board p) ≠ Cell.unknown
    by_cases hpt : p = t
    · rw [if_pos hpt]
      exact hcu
    · rw [if_neg hpt]
      exact hpne

/-- Flagging every mine (the win branch at the end of `Dig`) preserves the
state invariants. -/
theorem inv_flagMines (g : MinesweeperGame) (hI : GameInv g) :
    GameInv { g with
      board := fun q => if q ∈ g.minePositions then Cell.flag else g.board q } := by
  refine ⟨hI.rows_pos, hI.cols_pos, hI.mines_sub, hI.nn_eq, ?_, ?_, ?_, ?_, ?_⟩
  · intro p hp n hn
    have hnb : (if p ∈ g.minePositions then Cell.flag else g.board p) = Cell.num n := hn
    by_cases hpm : p ∈ g.minePositions
    · rw [if_pos hpm] at hnb
      exact absurd hnb (by simp)
    · rw [if_neg hpm] at hnb
      exact hI.board_num p hp n hnb
  · intro p hp
    constructor
    · intro n hn
      have hnb : (if p ∈ g.minePositions then Cell.flag else g.board p) = Cell.num n := hn
      rw [if_pos hp] at hnb
      exact absurd hnb (by simp)
    · intro hn
      have hnb : (if p ∈ g.minePositions then Cell.flag else g.board p) = Cell.lava := hn
      rw [if_pos hp] at hnb
      exact absurd hnb (by simp)
  · intro hdf p
    have hg := hI.live_clean hdf
    constructor
    · intro hn
      have hnb : (if p ∈ g.minePositions then Cell.flag else g.board p) = Cell.mine := hn
      by_cases hpm : p ∈ g.minePositions
      · rw [if_pos hpm] at hnb
        exact absurd hnb (by simp)
      · rw [if_neg hpm] at hnb
        exact (hg p).1 hnb
    · intro hn
      have hnb : (if p ∈ g.minePositions then Cell.flag else g.board p) = Cell.lava := hn
      by_cases hpm : p ∈ g.minePositions
      · rw [if_pos hpm] at hnb
        exact absurd hnb (by simp)
      · rw [if_neg hpm] at hnb
        exact (hg p).2 hnb
  · intro p hp hp0 q hq hqin hqu
    have hp0b : (if p ∈ g.minePositions then Cell.flag else g.board p) = Cell.num 0 := hp0
    have hqub : (if q ∈ g.minePositions then Cell.flag else g.board q) = Cell.unknown := hqu
    by_cases hpm : p ∈ g.minePositions
    · rw [if_pos hpm] at hp0b
      exact absurd hp0b (by simp)
    · rw [if_neg hpm] at hp0b
      by_cases hqm : q ∈ g.minePositions
      · rw [if_pos hqm] at hqub
        exact absurd hqub (by simp)
      · rw [if_neg hqm] at hqub
        exact hI.zero_closed p hp hp0b q hq hqin hqub
  · have hcongr := revealedNonMineCard_congr g.numRows g.numCols g.minePositions g.board
      (fun q => if q ∈ g.minePositions then Cell.flag else g.board q)
      (fun p hpm => if_neg hpm)
    show g.dugCount ≤ revealedNonMineCard g.numRows g.numCols g.minePositions
      (fun q => if q ∈ g.minePositions then Cell.flag else g.board q)
    rw [hcongr]
    exact hI.dug_le

theorem inv_init (numRows numCols numMines : Int) (sample : List Pos)
    (g : MinesweeperGame) (hs : SampleOk numRows numCols numMines sample)
    (h : mkGame numRows numCols numMines sample = .ok g) : GameInv g := by
  unfold mkGame at h
  by_cases h1 : numRows < 1
  · rw [if_pos h1] at h
    exact absurd h (by simp)
  rw [if_neg h1] at h
  by_cases h2 : numCols < 1
  · rw [if_pos h2] at h
    exact absurd h (by simp)
  rw [if_neg h2] at h
  by_cases h3 : numMines < 0
  · rw [if_pos h3] at h
    exact absurd h (by simp)
  rw [if_neg h3] at h
  by_cases h4 : (population numRows numCols).length < numMines.toNat
  · rw [if_pos h4] at h
    exact absurd h (by simp)
  rw [if_neg h4] at h
  · injection h with h5
    subst h5
    refine ⟨show (1 : Int) ≤ numRows by omega, show (1 : Int) ≤ numCols by omega,
      ?_, ?_, ?_, ?_, ?_, ?_, ?_⟩
    · intro m hm
      exact mem_population.mp (hs.2.2 m (List.mem_toFinset.mp hm))
    · intro p hp
      show initNumNeighbors numRows numCols sample.toFinset p = _
      unfold initNumNeighbors
      rw [if_pos hp]
    · intro p hp n hn
      exact absurd hn (by simp)
    · intro p hp
      exact ⟨fun n hn => by simp at hn, fun hn => by simp at hn⟩
    · intro _ p
      exact ⟨fun hn => by simp at hn, fun hn => by simp at hn⟩
    · intro p hp hp0
      exact absurd hp0 (by simp)
    · exact Nat.zero_le _

theorem inv_flag (g : MinesweeperGame) (row col : Int) (hI : GameInv g) :
    GameInv (PlantFlag g row col).1 := by
  unfold PlantFlag
  by_cases hin : inB g.numRows g.numCols (row, col)
  · rw [if_neg (not_not_intro hin)]
    exact inv_overwrite g (row, col) Cell.flag g.dead (g.flagCount + 1) hI
      (by simp) (fun n => by simp) (fun _ => by simp) (fun _ => ⟨by simp, by simp⟩)
      (fun hh => hh)
  · rw [if_pos hin]
    exact hI

theorem inv_dig (g : MinesweeperGame) (row col : Int) (hI : GameInv g) :
    GameInv (Dig g row col).1 := by
  unfold Dig
  by_cases hdead : g.dead = true
  · rw [if_pos hdead]
    exact hI
  rw [if_neg hdead]
  by_cases hin : inB g.numRows g.numCols (row, col)
  case neg =>
    rw [if_pos hin]
    exact hI
  rw [if_neg (not_not_intro hin)]
  by_cases hmine : (row, col) ∈ g.minePositions
  · rw [if_pos hmine]
    exact inv_overwrite g (row, col) Cell.mine true g.flagCount hI
      (by simp) (fun n => by simp) (fun _ => by simp)
      (fun hh => by simp at hh) (fun hh => by simp at hh)
  rw [if_neg hmine]
  by_cases hunk : g.board (row, col) = Cell.unknown
  case neg =>
    rw [if_pos hunk]
    exact inv_overwrite g (row, col) Cell.lava true g.flagCount hI
      (by simp) (fun n => by simp) (fun ht => absurd ht hmine)
      (fun hh => by simp at hh) (fun hh => by simp at hh)
  rw [if_neg (not_not_intro hunk)]
  simp only []
  obtain ⟨e1, e2, e3, e4, e5, e6, D1, D2, D3, D4⟩ :=
    digReveal_spec g row col hI hin hmine hunk
  have hg3 : GameInv (digReveal g row col) := by
    refine ⟨?_, ?_, ?_, ?_, ?_, ?_, ?_, ?_, ?_⟩
    · rw [e1]
      exact hI.rows_pos
    · rw [e2]
      exact hI.cols_pos
    · rw [e1, e2, e4]
      exact hI.mines_sub
    · rw [e1, e2, e4, e5]
      exact hI.nn_eq
    · rw [e1, e2, e5]
      intro p hp n hn
      rcases D1 p with hD | ⟨hDu, hDn⟩
      · rw [hD] at hn
        by_cases hpt : p = (row, col)
        · rw [if_pos hpt] at hn
          injection hn with h7
          rw [hpt]
          exact h7.symm
        · rw [if_neg hpt] at hn
          exact hI.board_num p hp n hn
      · rw [hDn] at hn
        injection hn with h7
        exact h7.symm
    · rw [e4]
      intro p hp
      rw [D2 p hp]
      exact hI.mine_cell p hp
    · rw [e3]
      intro hdf p
      rcases D1 p with hD | ⟨hDu, hDn⟩
      · rw [hD]
        by_cases hpt : p = (row, col)
        · rw [if_pos hpt]
          exact ⟨by simp, by simp⟩
        · rw [if_neg hpt]
          exact hI.live_clean hdf p
      · rw [hDn]
        exact ⟨by simp, by simp⟩
    · rw [e1, e2]
      exact D4
    · rw [e1, e2, e4]
      exact D3
  by_cases hwon : Won (digReveal g row col) = true
  · rw [if_pos hwon]
    exact inv_flagMines (digReveal g row col) hg3
  · rw [if_neg hwon]
    exact hg3

/-- Every reachable state satisfies the invariants. -/
theorem inv_of_reachable (g : MinesweeperGame) (h : Reachable g) : GameInv g := by
  induction h with
  | init numRows numCols numMines sample g hs hmk =>
    exact inv_init numRows numCols numMines sample g hs hmk
  | dig g row col h IH => exact inv_dig g row col IH
  | flag g row col h IH => exact inv_flag g row col IH

/-- C2: `won()` is exactly the counting condition and ignores flags.  On any
reachable board: (a) `won()` is true iff `rows*cols - dug_count` equals the
mine count; (b) if every mine is flagged but some in-bounds non-mine cell is
still hidden, `won()` is false; (c) if `dug_count = rows*cols - mine_count`
and the board is live, `won()` is true. -/
theorem won_spec (g : MinesweeperGame) (hr : Reachable g) :
    (Won g = true ↔
      g.numRows * g.numCols - (g.dugCount : Int) = (g.minePositions.card : Int)) ∧
    ((∀ m ∈ g.minePositions, g.board m = Cell.flag) →
      (∃ p, inB g.numRows g.numCols p ∧ p ∉ g.minePositions ∧
        g.board p = Cell.unknown) →
      Won g = false) ∧
    (g.dead = false →
      (g.dugCount : Int) = g.numRows * g.numCols - (g.minePositions.card : Int) →
      Won g = true) := by
  have hI := inv_of_reachable g hr
  have hcells : ((cellsOf g.numRows g.numCols).card : Int) = g.numRows * g.numCols := by
    rw [card_cellsOf]
    exact toNat_mul_cast _ _ hI.rows_pos hI.cols_pos
  have ha : Won g = true ↔
      g.numRows * g.numCols - (g.dugCount : Int) = (g.minePositions.card : Int) := by
    unfold Won NumMinesTotal
    rw [beq_iff_eq, hcells]
  refine ⟨ha, ?_, ?_⟩
  · intro hflag hhid
    obtain ⟨p, hp, hpm, hpu⟩ := hhid
    cases hW : Won g
    · rfl
    · exfalso
      have heq := ha.mp hW
      have hdug := hI.dug_le
      unfold revealedNonMineCard at hdug
      have hFsub : (cellsOf g.numRows g.numCols).filter
          (fun q => q ∉ g.minePositions ∧ g.board q ≠ Cell.unknown) ⊆
          cellsOf g.numRows g.numCols \ insert p g.minePositions := by
        intro q hq
        rw [Finset.mem_filter] at hq
        rw [Finset.mem_sdiff, Finset.mem_insert]
        refine ⟨hq.1, ?_⟩
        rintro (h5 | h5)
        · rw [h5] at hq
          exact hq.2.2 hpu
        · exact hq.2.1 h5
      have hins : insert p g.minePositions ⊆ cellsOf g.numRows g.numCols := by
        intro q hq
        rcases Finset.mem_insert.mp hq with h5 | h5
        · rw [h5]
          exact mem_cellsOf.mpr hp
        · exact mem_cellsOf.mpr (hI.mines_sub q h5)
      have hcard1 : (insert p g.minePositions).card = g.minePositions.card + 1 :=
        Finset.card_insert_of_not_mem hpm
      have hcard2 := Finset.card_le_card hFsub
      have hcard3 := Finset.card_sdiff hins
      have hcard4 := Finset.card_le_card hins
      omega
  · intro _ heq
    exact ha.mpr (by omega)

theorem won_spec_witness :
    Won demo11 = true ↔
      demo11.numRows * demo11.numCols - (demo11.dugCount : Int) =
        (demo11.minePositions.card : Int) :=
  (won_spec demo11 (Reachable.init 1 1 0 [] demo11
    ⟨by decide, by decide, by decide⟩ mkGame_demo11)).1

/-- C8 amended: on every reachable state, `dug_count` is bounded by
`rows*cols - mine_count` (so in particular by `rows*cols`); the bound of the
original claim, `dug_count + flag_count <= rows*cols`, does not hold because
`flag_count` counts flag calls rather than flagged cells. -/
theorem dug_count_bound (g : MinesweeperGame) (hr : Reachable g) :
    (g.dugCount : Int) ≤ g.numRows * g.numCols - (g.minePositions.card : Int) := by
  have hI := inv_of_reachable g hr
  have hcells : ((cellsOf g.numRows g.numCols).card : Int) = g.numRows * g.numCols := by
    rw [card_cellsOf]
    exact toNat_mul_cast _ _ hI.rows_pos hI.cols_pos
  have hdug := hI.dug_le
  unfold revealedNonMineCard at hdug
  have hsub : (cellsOf g.numRows g.numCols).filter
      (fun p => p ∉ g.minePositions ∧ g.board p ≠ Cell.unknown) ⊆
      cellsOf g.numRows g.numCols \ g.minePositions := by
    intro q hq
    rw [Finset.mem_filter] at hq
    exact Finset.mem_sdiff.mpr ⟨hq.1, hq.2.1⟩
  have hmsub : g.minePositions ⊆ cellsOf g.numRows g.numCols :=
    fun m hm => mem_cellsOf.mpr (hI.mines_sub m hm)
  have hcard2 := Finset.card_le_card hsub
  have hcard3 := Finset.card_sdiff hmsub
  have hcard4 := Finset.card_le_card hmsub
  omega

theorem dug_count_bound_witness :
    (demo11.dugCount : Int) ≤ demo11.numRows * demo11.numCols -
      (demo11.minePositions.card : Int) :=
  dug_count_bound demo11 (Reachable.init 1 1 0 [] demo11
    ⟨by decide, by decide, by decide⟩ mkGame_demo11)

/-- C7 amended: on a reachable board, a cell in a terminal state is never
changed by revealing or flagging any other cell; it changes only when
targeted directly (flagging it overwrites it with `Flagged`, and re-revealing
a revealed cell turns it into `InvalidReveal`). -/
theorem terminal_frame (g : MinesweeperGame) (hr : Reachable g) (p : Pos)
    (ht : isTerminal (g.board p) = true) (row col : Int) (hne : (row, col) ≠ p) :
    (Dig g row col).1.board p = g.board p ∧
    (PlantFlag g row col).1.board p = g.board p := by
  have hI := inv_of_reachable g hr
  have hpt : p ≠ (row, col) := Ne.symm hne
  constructor
  · unfold Dig
    by_cases hdead : g.dead = true
    · rw [if_pos hdead]
    rw [if_neg hdead]
    by_cases hin : inB g.numRows g.numCols (row, col)
    case neg =>
      rw [if_pos hin]
    rw [if_neg (not_not_intro hin)]
    by_cases hmine : (row, col) ∈ g.minePositions
    · rw [if_pos hmine]
      show (if p = (row, col) then Cell.mine else g.board p) = g.board p
      exact if_neg hpt
    rw [if_neg hmine]
    by_cases hunk : g.board (row, col) = Cell.unknown
    case neg =>
      rw [if_pos hunk]
      show (if p = (row, col) then Cell.lava else g.board p) = g.board p
      exact if_neg hpt
    rw [if_neg (not_not_intro hunk)]
    simp only []
    obtain ⟨e1, e2, e3, e4, e5, e6, D1, D2, D3, D4⟩ :=
      digReveal_spec g row col hI hin hmine hunk
    have hg3 : (digReveal g row col).board p = g.board p := by
      rcases D1 p with hD | ⟨hDu, hDn⟩
      · rw [hD, if_neg hpt]
      · rw [if_neg hpt] at hDu
        rw [hDu] at ht
        exact absurd ht (by simp [isTerminal])
    by_cases hwon : Won (digReveal g row col) = true
    · rw [if_pos hwon]
      show (if p ∈ (digReveal g row col).minePositions then Cell.flag
        else (digReveal g row col).board p) = g.board p
      have hlf : g.dead = false := by
        cases hgd : g.dead
        · rfl
        · exact absurd hgd hdead
      have hpm : p ∉ g.minePositions := by
        intro hm
        have h5 := hI.mine_cell p hm
        have h6 := hI.live_clean hlf p
        cases hbp : g.board p with
        | unknown =>
          rw [hbp] at ht
          exact absurd ht (by simp [isTerminal])
        | flag =>
          rw [hbp] at ht
          exact absurd ht (by simp [isTerminal])
        | mine => exact h6.1 hbp
        | lava => exact h6.2 hbp
        | num n => exact h5.1 n hbp
      have hpm2 : p ∉ (digReveal g row col).minePositions := by
        rw [e4]
        exact hpm
      rw [if_neg hpm2]
      exact hg3
    · rw [if_neg hwon]
      exact hg3
  · unfold PlantFlag
    by_cases hin : inB g.numRows g.numCols (row, col)
    · rw [if_neg (not_not_intro hin)]
      show (if p = (row, col) then Cell.flag else g.board p) = g.board p
      exact if_neg hpt
    · rw [if_pos hin]

theorem terminal_frame_witness :
    isTerminal ((Dig demo12 0 0).1.board (0, 0)) = true ∧
    ((Dig (Dig demo12 0 0).1 0 1).1.board (0, 0) = (Dig demo12 0 0).1.board (0, 0) ∧
     (PlantFlag (Dig demo12 0 0).1 0 1).1.board (0, 0) =
       (Dig demo12 0 0).1.board (0, 0)) :=
  ⟨by decide,
   terminal_frame (Dig demo12 0 0).1
     (Reachable.dig _ 0 0 (Reachable.init 1 2 1 [((0 : Int), (1 : Int))] demo12
       ⟨by decide, by decide, by decide⟩ mkGame_demo12))
     (0, 0) (by decide) 0 1 (by decide)⟩

/-- Chains of adjacent zero-neighbour-count cells starting at `c`: every cell
stepped through (each chain cell except possibly the endpoint) is in bounds,
has a zero neighbour count, and is not flagged; each step moves inside the
3×3 block of the previous cell, and the endpoint is in bounds. -/
inductive Chain (g : MinesweeperGame) (c : Pos) : Pos → Prop where
  | base : Chain g c c
  | step (x y : Pos) : Chain g c x → inB g.numRows g.numCols x →
      g.numNeighbors x = 0 → g.board x ≠ Cell.flag → y ∈ block3 x →
      inB g.numRows g.numCols y → Chain g c y

/-- C1: on a reachable live board, revealing an in-bounds hidden non-mine
cell with zero neighbour count reveals, within the same call, every cell
reachable from it through a chain of adjacent zero-neighbour-count cells —
where chains never pass through flagged cells — and no flagged cell is
auto-revealed by the flood fill. -/
theorem dig_flood_complete (g : MinesweeperGame) (row col : Int)
    (hr : Reachable g) (hlive : g.dead = false)
    (hin : inB g.numRows g.numCols (row, col))
    (hmine : (row, col) ∉ g.minePositions)
    (hunk : g.board (row, col) = Cell.unknown)
    (h0 : g.numNeighbors (row, col) = 0) :
    (∀ d, Chain g (row, col) d → g.board d ≠ Cell.flag →
      (Dig g row col).1.board d = Cell.num (g.numNeighbors d)) ∧
    (∀ d, g.board d = Cell.flag → (Dig g row col).1.board d = Cell.flag) := by
  have hI := inv_of_reachable g hr
  obtain ⟨e1, e2, e3, e4, e5, e6, D1, D2, D3, D4⟩ :=
    digReveal_spec g row col hI hin hmine hunk
  have hnomine : ∀ d, Chain g (row, col) d → d ∉ g.minePositions := by
    intro d hd
    induction hd with
    | base => exact hmine
    | step x y hc hx hx0 hxf hyx hy IH => exact zero_no_mines g hI x hx hx0 y hyx
  have hmain : ∀ d, Chain g (row, col) d → g.board d ≠ Cell.flag →
      (digReveal g row col).board d = Cell.num (g.numNeighbors d) := by
    intro d hd
    induction hd with
    | base =>
      intro _
      rcases D1 (row, col) with hD | ⟨hDu, hDn⟩
      · rw [hD, if_pos rfl]
      · exact hDn
    | step x y hc hx hx0 hxf hyx hy IH =>
      intro hyf
      have hx3 : (digReveal g row col).board x = Cell.num 0 := by
        rw [IH hxf, hx0]
      have hclose := D4 x hx hx3 y hyx hy
      rcases D1 y with hD | ⟨hDu, hDn⟩
      · by_cases hyt : y = (row, col)
        · rw [hD, if_pos hyt, hyt]
        · rw [if_neg hyt] at hD
          have hgy : g.board y ≠ Cell.unknown := hD ▸ hclose
          cases hby : g.board y with
          | unknown => exact absurd hby hgy
          | flag => exact absurd hby hyf
          | mine => exact absurd hby ((hI.live_clean hlive y).1)
          | lava => exact absurd hby ((hI.live_clean hlive y).2)
          | num n =>
            have hn := hI.board_num y hy n hby
            rw [hD, hby, hn]
      · exact hDn
  have hDigCases : (Dig g row col).1 =
      (if Won (digReveal g row col) = true then
        { digReveal g row col with
          board := fun q => if q ∈ (digReveal g row col).minePositions then Cell.flag
            else (digReveal g row col).board q }
       else digReveal g row col) := by
    unfold Dig
    rw [if_neg (by rw [hlive]; exact Bool.false_ne_true), if_neg (not_not_intro hin),
      if_neg hmine, if_neg (not_not_intro hunk)]
    simp only []
    by_cases hwon : Won (digReveal g row col) = true
    · rw [if_pos hwon, if_pos hwon]
    · rw [if_neg hwon, if_neg hwon]
  have hboard : ∀ q, q ∉ g.minePositions →
      (Dig g row col).1.board q = (digReveal g row col).board q := by
    intro q hq
    rw [hDigCases]
    by_cases hwon : Won (digReveal g row col) = true
    · rw [if_pos hwon]
      show (if q ∈ (digReveal g row col).minePositions then Cell.flag
        else (digReveal g row col).board q) = (digReveal g row col).board q
      rw [e4]
      exact if_neg hq
    · rw [if_neg hwon]
  refine ⟨?_, ?_⟩
  · intro d hd hdf
    rw [hboard d (hnomine d hd)]
    exact hmain d hd hdf
  · intro d hd
    have hg3d : (digReveal g row col).board d = Cell.flag := by
      rcases D1 d with hD | ⟨hDu, hDn⟩
      · have hdt : d ≠ (row, col) := by
          intro he
          rw [he, hunk] at hd
          exact absurd hd (by simp)
        rw [hD, if_neg hdt]
        exact hd
      · by_cases hdt : d = (row, col)
        · rw [if_pos hdt] at hDu
          exact absurd hDu (by simp)
        · rw [if_neg hdt] at hDu
          rw [hd] at hDu
          exact absurd hDu (by simp)
    rw [hDigCases]
    by_cases hwon : Won (digReveal g row col) = true
    · rw [if_pos hwon]
      show (if d ∈ (digReveal g row col).minePositions then Cell.flag
        else (digReveal g row col).board d) = Cell.flag
      by_cases hdm : d ∈ (digReveal g row col).minePositions
      · rw [if_pos hdm]
      · rw [if_neg hdm]
        exact hg3d
    · rw [if_neg hwon]
      exact hg3d

/-- A 2×2 board with no mines, `MinesweeperGame(2, 2, 0)`. -/
def demo22 : MinesweeperGame :=
  { numRows := 2
    numCols := 2
    dead := false
    minePositions := ([] : List Pos).toFinset
    numNeighbors := initNumNeighbors 2 2 ([] : List Pos).toFinset
    board := fun _ => Cell.unknown
    dugCount := 0
    flagCount := 0
    recentlyPoked := [] }

theorem mkGame_demo22 : mkGame 2 2 0 [] = .ok demo22 := by rfl

theorem dig_flood_complete_witness :
    (∀ d, Chain demo22 (0, 0) d → demo22.board d ≠ Cell.flag →
      (Dig demo22 0 0).1.board d = Cell.num (demo22.numNeighbors d)) ∧
    (∀ d, demo22.board d = Cell.flag → (Dig demo22 0 0).1.board d = Cell.flag) :=
  dig_flood_complete demo22 0 0
    (Reachable.init 2 2 0 [] demo22 ⟨by decide, by decide, by decide⟩ mkGame_demo22)
    rfl (by decide) (by decide) rfl (by decide)
